import Mathlib

/-!
Verification of the vsv service-supervision tool's core components against
its design specification.  The Rust sources (`src/runit.rs`, `src/utils.rs`,
`src/service.rs`) are shallowly embedded: pure decoding logic becomes Lean
functions on byte lists (bytes are `Nat` values, machine integers are `Nat`
or `Int` with explicit two's-complement wrapping), and the I/O-performing
operations (control-pipe writes, directory listing, log following, process
tree rendering) become pure functions over explicit models of the data the
I/O layer delivers (file contents as character or byte lists, directory
entries as records, the scanned process table as a node list).
-/

namespace Vsv

/-! ## Status decoding (`src/runit.rs`, `RunitService::get_status`) -/

/-- Possible states for a runit service (`RunitServiceState` in `runit.rs`). -/
inductive RunitServiceState where
  | Run
  | Down
  | Finish
  | Unknown
deriving DecidableEq, Repr

/-- Control commands (`RunitCommand` in `runit.rs`). -/
inductive RunitCommand where
  | Up
  | Down
  | Once
  | Pause
  | Cont
  | Hup
  | Alarm
  | Interrupt
  | Quit
  | Term
  | Kill
  | Exit
deriving DecidableEq, Repr

/-- Embedding of `RunitCommand::to_char` from `runit.rs`. -/
def RunitCommand.to_char : RunitCommand → Char
  | .Up => 'u'
  | .Down => 'd'
  | .Once => 'o'
  | .Pause => 'p'
  | .Cont => 'c'
  | .Hup => 'h'
  | .Alarm => 'a'
  | .Interrupt => 'i'
  | .Quit => 'q'
  | .Term => 't'
  | .Kill => 'k'
  | .Exit => 'x'

/-- Embedding of the `RunitStatus` struct.  `pid` is the signed 32-bit
`pid_t`, represented as an `Int`; `start_time` is the number of seconds
since the Unix epoch (`SystemTime::UNIX_EPOCH + Duration::from_secs`);
`want` is the raw byte at offset 17 (Rust stores it as a `char`, i.e. the
code point of that byte). -/
structure RunitStatus where
  state : RunitServiceState
  pid : Option Int
  start_time : Option Nat
  want : Nat
  paused : Bool
deriving DecidableEq, Repr

/-- The one failure mode of the pure part of `get_status`: the
`read_exact` into the 20-byte buffer fails when the status file holds
fewer than 20 bytes.  The specification calls this failure
`InvalidLength`. -/
inductive StatusError where
  | InvalidLength
deriving DecidableEq, Repr

/-- Little-endian value of a byte list, as computed by
`u32::from_le_bytes` on `buf[12..16]`. -/
def le32 (l : List Nat) : Nat :=
  l.foldr (fun x acc => x + 256 * acc) 0

/-- Big-endian value of a byte list, as computed by `u64::from_be_bytes`
on `buf[0..8]`. -/
def be64 (l : List Nat) : Nat :=
  l.foldl (fun acc x => acc * 256 + x) 0

/-- The fixed TAI64 epoch offset constant from `get_status`. -/
def tai64Offset : Nat := 4611686018427387914

/-- The Rust cast `pid_raw as pid_t` (`u32` to `i32`): two's-complement
wrap of an unsigned 32-bit value into a signed 32-bit value. -/
def toPidT (n : Nat) : Int :=
  if n < 2 ^ 31 then (n : Int) else (n : Int) - 2 ^ 32

/-- Embedding of `RunitService::get_status` from `runit.rs`, as a function
of the bytes of the `supervise/status` file.  `read_exact` fills a 20-byte
buffer, so it fails iff the file holds fewer than 20 bytes and otherwise
consumes exactly the first 20 bytes; the rest mirrors the source line by
line (state from `buf[19]`, pid little-endian from `buf[12..16]` with `0`
meaning absent, `paused` from `buf[16] == 1`, `want` from `buf[17]`, and
the TAI64 timestamp big-endian from `buf[0..8]`). -/
def get_status (bytes : List Nat) : Except StatusError RunitStatus :=
  if bytes.length < 20 then .error .InvalidLength
  else
    let buf := bytes.take 20
    let state : RunitServiceState :=
      match buf.getD 19 0 with
      | 0 => .Down
      | 1 => .Run
      | 2 => .Finish
      | _ => .Unknown
    let pid_raw := le32 ((buf.drop 12).take 4)
    let pid : Option Int := if pid_raw > 0 then some (toPidT pid_raw) else none
    let paused := buf.getD 16 0 == 1
    let want := buf.getD 17 0
    let tai := be64 (buf.take 8)
    let start_time : Option Nat :=
      if tai ≥ tai64Offset then some (tai - tai64Offset) else none
    .ok { state, pid, start_time, want, paused }

/-! ### Specification-side byte layout (for claim C1)

The following definitions are written from the specification's words
(section 4.1 "Byte layout"), not from the source: they build a 20-byte
status buffer with chosen fields, so that decoding can be checked to
reproduce exactly those fields. -/

/-- Big-endian 8-byte encoding of a 64-bit value (spec: "offset 0-7:
big-endian 64-bit seconds in TAI64 encoding"). -/
def be64bytes (n : Nat) : List Nat :=
  [n / 2 ^ 56 % 256, n / 2 ^ 48 % 256, n / 2 ^ 40 % 256, n / 2 ^ 32 % 256,
   n / 2 ^ 24 % 256, n / 2 ^ 16 % 256, n / 2 ^ 8 % 256, n % 256]

/-- Little-endian 4-byte encoding of a 32-bit value (spec: "offset 12-15:
little-endian 32-bit process id"). -/
def le32bytes (n : Nat) : List Nat :=
  [n % 256, n / 2 ^ 8 % 256, n / 2 ^ 16 % 256, n / 2 ^ 24 % 256]

/-- Synthetic 20-byte status buffer with chosen fields, following the
spec's byte layout: TAI64 seconds at 0-7, four free bytes at 8-11, the
pid at 12-15 little-endian, the paused byte at 16, the want byte at 17, a
free byte at 18 and the state byte at 19. -/
def encodeStatus (tai n8 n9 n10 n11 pidRaw pausedByte wantByte b18 stByte : Nat) :
    List Nat :=
  be64bytes tai ++ [n8, n9, n10, n11] ++ le32bytes pidRaw ++
    [pausedByte, wantByte, b18, stByte]

/-- State decoding table in the specification's words: "0=Down, 1=Run,
2=Finish; any other value = Unknown". -/
def specState (b : Nat) : RunitServiceState :=
  if b = 0 then .Down else if b = 1 then .Run else if b = 2 then .Finish
  else .Unknown

/-- Big-endian TAI64 value at offsets 0-7 of a status buffer. -/
def tai64At (bytes : List Nat) : Nat := be64 (bytes.take 8)

/-- Little-endian unsigned 32-bit pid value at offsets 12-15 of a status
buffer. -/
def pidRawAt (bytes : List Nat) : Nat := le32 ((bytes.drop 12).take 4)

lemma specState_eq_match (b : Nat) :
    (match b with
      | 0 => RunitServiceState.Down
      | 1 => RunitServiceState.Run
      | 2 => RunitServiceState.Finish
      | _ => RunitServiceState.Unknown) = specState b := by
  rcases b with _ | _ | _ | b <;> rfl

/-- Workhorse decomposition: on any input of at least 20 bytes,
`get_status` succeeds and every field is determined by the documented
offsets of the first 20 bytes. -/
lemma get_status_eq_of_len (bytes : List Nat) (h : 20 ≤ bytes.length) :
    get_status bytes = .ok {
      state := specState (bytes.getD 19 0),
      pid := if pidRawAt bytes = 0 then none
             else some (toPidT (pidRawAt bytes)),
      start_time := if tai64Offset ≤ tai64At bytes
                    then some (tai64At bytes - tai64Offset) else none,
      want := bytes.getD 17 0,
      paused := bytes.getD 16 0 == 1 } := by
  have hnot : ¬ bytes.length < 20 := by omega
  have hgetD : ∀ i, i < 20 → (bytes.take 20).getD i 0 = bytes.getD i 0 := by
    intro i hi
    simp [List.getD, List.getElem?_take_of_lt hi]
  have hdrop : ((bytes.take 20).drop 12).take 4 = (bytes.drop 12).take 4 := by
    rw [List.drop_take, List.take_take]
    norm_num
  have htake : (bytes.take 20).take 8 = bytes.take 8 := by
    rw [List.take_take]
    norm_num
  rw [get_status]
  rw [if_neg hnot]
  simp only [hgetD 19 (by omega), hgetD 17 (by omega), hgetD 16 (by omega),
    hdrop, htake, specState_eq_match]
  have hpos : (pidRawAt bytes > 0) = ¬ (pidRawAt bytes = 0) := by
    simp [Nat.pos_iff_ne_zero]
  congr 1
  rw [RunitStatus.mk.injEq]
  refine ⟨rfl, ?_, rfl, rfl, rfl⟩
  rw [pidRawAt]
  split
  · rw [if_neg (by omega)]
  · rw [if_pos (by omega)]

lemma le32_le32bytes (n : Nat) (h : n < 2 ^ 32) : le32 (le32bytes n) = n := by
  simp only [le32, le32bytes, List.foldr]
  omega

lemma be64_be64bytes (n : Nat) (h : n < 2 ^ 64) : be64 (be64bytes n) = n := by
  simp only [be64, be64bytes, List.foldl]
  omega

lemma le32_lt (l : List Nat) (hl : l.length ≤ 4) (hb : ∀ b ∈ l, b < 256) :
    le32 l < 2 ^ 32 := by
  match l, hl with
  | [], _ => simp [le32]
  | [a], _ => simp [le32]; have := hb a (by simp); omega
  | [a, b], _ =>
    simp [le32]
    have ha := hb a (by simp); have hbb := hb b (by simp); omega
  | [a, b, c], _ =>
    simp [le32]
    have ha := hb a (by simp); have hbb := hb b (by simp)
    have hc := hb c (by simp); omega
  | [a, b, c, d], _ =>
    simp [le32]
    have ha := hb a (by simp); have hbb := hb b (by simp)
    have hc := hb c (by simp); have hd := hb d (by simp); omega

/-- C1: decoding a synthetically built 20-byte buffer reproduces exactly
the encoded fields: the state comes from byte 19 via the 0=Down, 1=Run,
2=Finish, otherwise-Unknown table, the pid is the little-endian 32-bit
value at offsets 12-15 with 0 decoded as absent, `paused` is true iff
byte 16 equals 1, and `want` is the raw byte at offset 17. -/
theorem get_status_decodes_encoded_fields
    (tai n8 n9 n10 n11 pidRaw pausedByte wantByte b18 stByte : Nat)
    (htai : tai < 2 ^ 64) (hpid : pidRaw < 2 ^ 32) :
    get_status (encodeStatus tai n8 n9 n10 n11 pidRaw pausedByte wantByte b18 stByte) =
      .ok { state := specState stByte,
            pid := if pidRaw = 0 then none else some (toPidT pidRaw),
            start_time := if tai64Offset ≤ tai then some (tai - tai64Offset)
                          else none,
            want := wantByte,
            paused := pausedByte == 1 } := by
  have hlen : 20 ≤ (encodeStatus tai n8 n9 n10 n11 pidRaw pausedByte wantByte b18 stByte).length := by
    simp [encodeStatus, be64bytes, le32bytes]
  rw [get_status_eq_of_len _ hlen]
  have h19 : (encodeStatus tai n8 n9 n10 n11 pidRaw pausedByte wantByte b18 stByte).getD 19 0 = stByte := by
    simp [encodeStatus, be64bytes, le32bytes, List.getD]
  have h17 : (encodeStatus tai n8 n9 n10 n11 pidRaw pausedByte wantByte b18 stByte).getD 17 0 = wantByte := by
    simp [encodeStatus, be64bytes, le32bytes, List.getD]
  have h16 : (encodeStatus tai n8 n9 n10 n11 pidRaw pausedByte wantByte b18 stByte).getD 16 0 = pausedByte := by
    simp [encodeStatus, be64bytes, le32bytes, List.getD]
  have hpraw : pidRawAt (encodeStatus tai n8 n9 n10 n11 pidRaw pausedByte wantByte b18 stByte) = pidRaw := by
    have : ((encodeStatus tai n8 n9 n10 n11 pidRaw pausedByte wantByte b18 stByte).drop 12).take 4 = le32bytes pidRaw := by
      simp [encodeStatus, be64bytes, le32bytes]
    rw [pidRawAt, this, le32_le32bytes _ hpid]
  have htai64 : tai64At (encodeStatus tai n8 n9 n10 n11 pidRaw pausedByte wantByte b18 stByte) = tai := by
    have : (encodeStatus tai n8 n9 n10 n11 pidRaw pausedByte wantByte b18 stByte).take 8 = be64bytes tai := by
      simp [encodeStatus, be64bytes, le32bytes]
    rw [tai64At, this, be64_be64bytes _ htai]
  rw [h19, h17, h16, hpraw, htai64]

/-- Witness for C1 at concrete field values. -/
theorem get_status_decodes_encoded_fields_witness :
    get_status (encodeStatus (4611686018427387914 + 100) 0 0 0 0 1234 1 117 0 1) =
      .ok { state := specState 1,
            pid := if (1234 : Nat) = 0 then none else some (toPidT 1234),
            start_time := if tai64Offset ≤ 4611686018427387914 + 100
                          then some (4611686018427387914 + 100 - tai64Offset)
                          else none,
            want := 117,
            paused := (1 : Nat) == 1 } :=
  get_status_decodes_encoded_fields (4611686018427387914 + 100) 0 0 0 0 1234 1 117 0 1
    (by norm_num) (by norm_num)

/-- C2 counterexample: a 21-byte input (length ≠ 20) does NOT fail — the
decoder fills its 20-byte buffer from the first 20 bytes and succeeds, so
a record is produced for an input longer than 20 octets. -/
theorem get_status_succeeds_on_21_bytes :
    (List.replicate 21 (0 : Nat)).length ≠ 20 ∧
      get_status (List.replicate 21 (0 : Nat)) =
        .ok { state := .Down, pid := none, start_time := none,
              want := 0, paused := false } := by
  constructor
  · decide
  · rfl

/-- C2 (amended): `get_status` fails with `InvalidLength` exactly when
the input holds fewer than 20 octets; on any input of 20 or more octets a
record is produced from the first 20 bytes, with trailing bytes ignored.
No partial or best-effort record is produced for a shorter input. -/
theorem get_status_length_contract (bytes : List Nat) :
    (get_status bytes = .error .InvalidLength ↔ bytes.length < 20) ∧
      (20 ≤ bytes.length →
        (get_status bytes).isOk = true ∧
        get_status bytes = get_status (bytes.take 20)) := by
  constructor
  · constructor
    · intro h
      by_contra hlen
      rw [get_status_eq_of_len bytes (by omega)] at h
      exact Except.noConfusion h
    · intro h
      rw [get_status, if_pos h]
  · intro h
    have h20 : (bytes.take 20).length = 20 := by
      simp [List.length_take]
      omega
    rw [get_status_eq_of_len bytes h, get_status_eq_of_len (bytes.take 20) (by omega)]
    refine ⟨rfl, ?_⟩
    have hgetD : ∀ i, i < 20 → (bytes.take 20).getD i 0 = bytes.getD i 0 := by
      intro i hi
      simp [List.getD, List.getElem?_take_of_lt hi]
    have hdrop : ((bytes.take 20).drop 12).take 4 = (bytes.drop 12).take 4 := by
      rw [List.drop_take, List.take_take]
      norm_num
    have htake : (bytes.take 20).take 8 = bytes.take 8 := by
      rw [List.take_take]
      norm_num
    rw [pidRawAt, pidRawAt, tai64At, tai64At, hdrop, htake,
      hgetD 19 (by omega), hgetD 17 (by omega), hgetD 16 (by omega)]

/-- Witness for the C2 amended theorem at a concrete 22-byte input. -/
theorem get_status_length_contract_witness :
    (get_status (List.replicate 22 (0 : Nat)) = .error .InvalidLength ↔
        (List.replicate 22 (0 : Nat)).length < 20) ∧
      (20 ≤ (List.replicate 22 (0 : Nat)).length →
        (get_status (List.replicate 22 (0 : Nat))).isOk = true ∧
        get_status (List.replicate 22 (0 : Nat)) =
          get_status ((List.replicate 22 (0 : Nat)).take 20)) :=
  get_status_length_contract (List.replicate 22 0)

/-- C3: for a 20-byte buffer with big-endian 64-bit value `tai` at
offsets 0-7, the decode succeeds, and the start time is the Unix epoch
plus `tai - 4611686018427387914` seconds when `tai` is at least that
offset constant (so `tai` exactly equal to the offset yields the
epoch-zero timestamp), and is absent when `tai` is below it. -/
theorem get_status_start_time (bytes : List Nat) (h : bytes.length = 20) :
    ∃ st, get_status bytes = .ok st ∧
      (tai64Offset ≤ tai64At bytes →
        st.start_time = some (tai64At bytes - tai64Offset)) ∧
      (tai64At bytes < tai64Offset → st.start_time = none) := by
  refine ⟨_, get_status_eq_of_len bytes (by omega), ?_, ?_⟩
  · intro hle
    simp [if_pos hle]
  · intro hlt
    simp [if_neg (by omega : ¬ tai64Offset ≤ tai64At bytes)]

/-- Witness for C3: a buffer whose TAI64 field equals the epoch offset
exactly decodes to the epoch-zero timestamp (`some 0`), and a buffer
whose TAI64 field is one less decodes with the timestamp absent. -/
theorem get_status_start_time_witness :
    (∃ st, get_status (be64bytes 4611686018427387914 ++ List.replicate 12 0) = .ok st ∧
        st.start_time = some 0) ∧
      (∃ st, get_status (be64bytes 4611686018427387913 ++ List.replicate 12 0) = .ok st ∧
        st.start_time = none) := by
  constructor
  · obtain ⟨st, hok, hsome, -⟩ :=
      get_status_start_time (be64bytes 4611686018427387914 ++ List.replicate 12 0) (by decide)
    refine ⟨st, hok, ?_⟩
    rw [hsome (by decide)]
    norm_num
    decide
  · obtain ⟨st, hok, -, hnone⟩ :=
      get_status_start_time (be64bytes 4611686018427387913 ++ List.replicate 12 0) (by decide)
    exact ⟨st, hok, hnone (by decide)⟩

/-- C10: the "no process" test is performed on the unsigned 32-bit value
before conversion: any nonzero little-endian value at offsets 12-15
yields a present pid, and a raw value at or above `2^31` is converted by
two's-complement wrap to a negative signed pid rather than rejected. -/
theorem get_status_pid_wrap (bytes : List Nat) (h : bytes.length = 20)
    (hb : ∀ b ∈ bytes, b < 256) :
    ∃ st, get_status bytes = .ok st ∧
      (pidRawAt bytes = 0 → st.pid = none) ∧
      (pidRawAt bytes ≠ 0 → st.pid = some (toPidT (pidRawAt bytes))) ∧
      (2 ^ 31 ≤ pidRawAt bytes →
        st.pid = some ((pidRawAt bytes : Int) - 2 ^ 32) ∧
        (pidRawAt bytes : Int) - 2 ^ 32 < 0) := by
  have hlt : pidRawAt bytes < 2 ^ 32 := by
    refine le32_lt _ (by simp) ?_
    intro b hbmem
    exact hb b (List.mem_of_mem_drop (List.mem_of_mem_take hbmem))
  refine ⟨_, get_status_eq_of_len bytes (by omega), ?_, ?_, ?_⟩
  · intro h0
    simp [if_pos h0]
  · intro h0
    simp [if_neg h0]
  · intro hge
    have hne : pidRawAt bytes ≠ 0 := by positivity
    constructor
    · simp only [if_neg hne]
      rw [toPidT, if_neg (by omega)]
    · have : (pidRawAt bytes : Int) < 2 ^ 32 := by exact_mod_cast hlt
      omega

/-- Witness for C10: a buffer whose pid field is `0xFFFFFFFF` decodes to
the negative pid `-1`. -/
theorem get_status_pid_wrap_witness :
    ∃ st, get_status (List.replicate 12 0 ++ [255, 255, 255, 255, 0, 0, 0, 0]) = .ok st ∧
      st.pid = some (-1) := by
  obtain ⟨st, hok, -, -, hwrap⟩ :=
    get_status_pid_wrap (List.replicate 12 0 ++ [255, 255, 255, 255, 0, 0, 0, 0])
      (by decide) (by decide)
  refine ⟨st, hok, ?_⟩
  have h1 := (hwrap (by decide)).1
  rw [h1]
  norm_num
  decide

/-! ## Control channel (`src/runit.rs`, `RunitService::control`)

The filesystem side of `control` is modelled by a record saying whether
the control pipe `servicePath/supervise/control` exists and whether the
open and write operations succeed; the function's observable outcome is
either a distinguished error or the effect it performed (the open mode
and the exact bytes written). -/

/-- Error taxonomy of `control`: the distinguished "control pipe does not
exist (service not supervised?)" error versus any other open/write
failure surfaced through `?`. -/
inductive ControlError where
  | NotSupervised
  | IOFailure
deriving DecidableEq, Repr

/-- File open mode (the source uses `OpenOptions::new().write(true)`). -/
inductive OpenMode where
  | WriteOnly
deriving DecidableEq, Repr

/-- Model of the filesystem state relevant to one `control` call. -/
structure ControlPipeFS where
  controlExists : Bool
  openOk : Bool
  writeOk : Bool
deriving DecidableEq, Repr

/-- The effect a successful `control` call performed. -/
structure ControlEffect where
  openMode : OpenMode
  written : List Nat
deriving DecidableEq, Repr

/-- Embedding of `RunitService::control` from `runit.rs`: if the pipe
path does not exist the call fails with the distinguished not-supervised
error; otherwise it opens the pipe write-only (an open failure is a
generic I/O failure) and writes the single byte `cmd.to_char() as u8`
(a write failure again being a generic I/O failure). -/
def control (fs : ControlPipeFS) (cmd : RunitCommand) :
    Except ControlError ControlEffect :=
  if !fs.controlExists then .error .NotSupervised
  else if !fs.openOk then .error .IOFailure
  else
    let c := cmd.to_char
    if !fs.writeOk then .error .IOFailure
    else .ok { openMode := .WriteOnly, written := [c.toNat] }

/-- The command-to-character table in the specification's words:
up=`u`, down=`d`, once=`o`, pause=`p`, continue=`c`, hangup=`h`,
alarm=`a`, interrupt=`i`, quit=`q`, terminate=`t`, kill=`k`, exit=`x`. -/
def specCommandChar : RunitCommand → Char
  | .Up => 'u'
  | .Down => 'd'
  | .Once => 'o'
  | .Pause => 'p'
  | .Cont => 'c'
  | .Hup => 'h'
  | .Alarm => 'a'
  | .Interrupt => 'i'
  | .Quit => 'q'
  | .Term => 't'
  | .Kill => 'k'
  | .Exit => 'x'

/-- C4: `control` fails with the distinguished `NotSupervised` error
exactly when the control pipe is missing; any other open/write failure is
a generic `IOFailure`; a successful call opened the pipe write-only and
wrote exactly one byte, the ASCII character given by the 1:1 command
table; and the source's `to_char` agrees with the spec's table on all 12
commands. -/
theorem control_send_contract :
    (∀ fs cmd, control fs cmd = .error .NotSupervised ↔
        fs.controlExists = false) ∧
    (∀ fs cmd, control fs cmd = .error .IOFailure ↔
        fs.controlExists = true ∧ (fs.openOk = false ∨ fs.writeOk = false)) ∧
    (∀ fs cmd eff, control fs cmd = .ok eff →
        eff.openMode = .WriteOnly ∧
        eff.written = [(RunitCommand.to_char cmd).toNat] ∧
        eff.written.length = 1) ∧
    (∀ fs cmd, fs.controlExists = true → fs.openOk = true →
        fs.writeOk = true → (control fs cmd).isOk = true) ∧
    (∀ cmd, RunitCommand.to_char cmd = specCommandChar cmd) := by
  refine ⟨?_, ?_, ?_, ?_, ?_⟩
  · rintro ⟨a, b, c⟩ cmd
    cases a <;> cases b <;> cases c <;> simp [control]
  · rintro ⟨a, b, c⟩ cmd
    cases a <;> cases b <;> cases c <;> simp [control]
  · rintro ⟨a, b, c⟩ cmd eff h
    cases a <;> cases b <;> cases c <;>
      simp [control] at h <;>
      simp [← h]
  · rintro ⟨a, b, c⟩ cmd ha hb hc
    subst ha; subst hb; subst hc
    simp [control, Except.isOk, Except.toBool]
  · intro cmd
    cases cmd <;> rfl

/-- Witness for C4: a call on a missing pipe returns `NotSupervised`,
and a call on a live pipe succeeds, having written exactly the byte
`117` (`u`). -/
theorem control_send_contract_witness :
    control ⟨false, true, true⟩ .Up = .error .NotSupervised ∧
      (control ⟨true, true, true⟩ .Up).isOk = true ∧
      ∀ eff, control ⟨true, true, true⟩ .Up = .ok eff →
        eff.openMode = .WriteOnly ∧ eff.written = [117] := by
  refine ⟨(control_send_contract.1 ⟨false, true, true⟩ .Up).2 rfl,
    control_send_contract.2.2.2.1 ⟨true, true, true⟩ .Up rfl rfl rfl, ?_⟩
  intro eff h
  obtain ⟨h1, h2, -⟩ := control_send_contract.2.2.1 ⟨true, true, true⟩ .Up eff h
  exact ⟨h1, h2⟩

/-! ## Service descriptor construction (`src/service.rs`,
`Service::from_runit_service`)

The status-decoding part of `from_runit_service` is embedded as a pure
function of the inputs the I/O layer delivers: the service name, its
`enabled` bit, and the `Result` of `get_status`.  The displayed fields
relevant to the claim are the state, pid, start time, want and paused
columns. -/

/-- Possible states for a displayed service (`ServiceState` in
`service.rs`). -/
inductive ServiceState where
  | Run
  | Down
  | Finish
  | Unknown
deriving DecidableEq, Repr

/-- The `RunitServiceState` to `ServiceState` mapping inside
`from_runit_service`. -/
def stateOfRunit : RunitServiceState → ServiceState
  | .Run => .Run
  | .Down => .Down
  | .Finish => .Finish
  | .Unknown => .Unknown

/-- The descriptor fields of a service row that derive from the status
read (name and enabled bit are threaded through unchanged;
`start_time` is a `Result`, an error carrying a message). -/
structure ServiceRow where
  name : String
  state : ServiceState
  enabled : Bool
  pid : Option Int
  start_time : Except String Nat
  want : Nat
  paused : Bool
deriving Repr

/-- Embedding of the status-handling `match` in
`Service::from_runit_service`: a successful status fills the fields from
the record (an absent timestamp becomes the "invalid timestamp" error);
a failed status read or decode degrades the row to state `Unknown`, no
pid, the error as the time column, want `u` (byte 117) and not paused. -/
def from_runit_service (name : String) (enabled : Bool)
    (statusResult : Except StatusError RunitStatus) : ServiceRow :=
  match statusResult with
  | .ok status =>
      { name := name
        state := stateOfRunit status.state
        enabled := enabled
        pid := status.pid
        start_time :=
          match status.start_time with
          | some t => .ok t
          | none => .error "invalid timestamp"
        want := status.want
        paused := status.paused }
  | .error _ =>
      { name := name
        state := .Unknown
        enabled := enabled
        pid := none
        start_time := .error "status read failed"
        want := 117
        paused := false }

/-- Building the listing: one row per service, each from its own status
result (`status.rs` callers map `from_runit_service` over the service
list). -/
def buildRows (svcs : List (String × Bool × Except StatusError RunitStatus)) :
    List ServiceRow :=
  svcs.map (fun s => from_runit_service s.1 s.2.1 s.2.2)

/-- C9: a failed status read or decode never aborts the listing: the
row for the failed service is still built, with its displayed state
degraded to `Unknown` and no pid; the listing keeps one row per service
and every other row is exactly what it would be in isolation, so the
remaining services are unaffected. -/
theorem status_failure_degrades_to_unknown :
    (∀ name enabled err,
        (from_runit_service name enabled (.error err)).state = .Unknown ∧
        (from_runit_service name enabled (.error err)).pid = none ∧
        (from_runit_service name enabled (.error err)).name = name ∧
        (from_runit_service name enabled (.error err)).enabled = enabled) ∧
    (∀ svcs, (buildRows svcs).length = svcs.length) ∧
    (∀ svcs i, (buildRows svcs).get? i =
        (svcs.get? i).map (fun s => from_runit_service s.1 s.2.1 s.2.2)) := by
  refine ⟨?_, ?_, ?_⟩
  · intro name enabled err
    exact ⟨rfl, rfl, rfl, rfl⟩
  · intro svcs
    simp [buildRows]
  · intro svcs i
    simp [buildRows]

/-! ## Log following (`src/utils.rs`, `get_tail_content` and
`follow_file_filtered`)

File contents are modelled as character lists (log content is treated as
single-byte characters, so byte offsets and character offsets coincide;
the `from_utf8_lossy` conversion and CR-LF endings are outside the
model).  The pre-follow phase is a pure function of the content; one
iteration of the follow loop is a pure transition on the follow state,
taking the outcome of the `read` call and of the `fs::metadata` probe as
inputs. -/

/-- Embedding of Rust `str::starts_with` on character lists: first
argument is the needle, second the haystack. -/
def startsWith : List Char → List Char → Bool
  | [], _ => true
  | _ :: _, [] => false
  | a :: as, b :: bs => a == b && startsWith as bs

/-- Embedding of Rust `str::contains` with a string pattern: does the
haystack contain the needle as a contiguous substring?  The empty needle
matches everything. -/
def containsSeq (needle : List Char) : List Char → Bool
  | [] => needle.isEmpty
  | c :: rest => startsWith needle (c :: rest) || containsSeq needle rest

/-- Splitting at newline characters, keeping all (possibly empty)
fragments: the underlying split of Rust `str::lines`. -/
def splitNL : List Char → List (List Char)
  | [] => [[]]
  | c :: rest =>
    if c = '\n' then [] :: splitNL rest
    else
      match splitNL rest with
      | [] => [[c]]
      | l :: ls => (c :: l) :: ls

/-- Embedding of Rust `str::lines` (for LF-terminated content): split at
newlines, where a final line ending is optional — a trailing empty
fragment coming from a terminating newline is not a line. -/
def linesOf (s : List Char) : List (List Char) :=
  let ps := splitNL s
  if ps.getLast? = some [] then ps.dropLast else ps

/-- The byte budget of `get_tail_content`: an estimated 200 bytes per
requested line with an 8 KiB floor (`max(8192, n_lines * 200)`). -/
def tailBudget (n : Nat) : Nat := max 8192 (n * 200)

/-- The seek start of `get_tail_content`: 0 when reading all, otherwise
`file_len - budget` when the file is larger than the budget, else 0. -/
def startPos (fileLen n : Nat) (read_all : Bool) : Nat :=
  if read_all then 0
  else if fileLen > tailBudget n then fileLen - tailBudget n
  else 0

/-- The pre-follow phase of `follow_file_filtered`: read from the seek
start to end-of-file, split into lines, retain the lines containing the
filter, and (when not reading all) keep only the last `n` matching
lines, preserving original order.  Returns the list of printed lines. -/
def preFollowLines (content filterStr : List Char) (n : Nat)
    (read_all : Bool) : List (List Char) :=
  let window := content.drop (startPos content.length n read_all)
  let matching := (linesOf window).filter (fun l => containsSeq filterStr l)
  let start := if !read_all && matching.length > n
               then matching.length - n else 0
  matching.drop start

lemma splitNL_ne_nil (s : List Char) : splitNL s ≠ [] := by
  match s with
  | [] => simp [splitNL]
  | c :: rest =>
    rw [splitNL]
    split
    · simp
    · split <;> simp

lemma splitNL_cons_of_ne (c : Char) (h : ¬ c = '\n') (s : List Char) :
    splitNL (c :: s) = (c :: (splitNL s).headD []) :: (splitNL s).tail := by
  rw [splitNL]
  rw [if_neg h]
  rcases hs : splitNL s with - | ⟨l, ls⟩
  · exact absurd hs (splitNL_ne_nil s)
  · rfl

lemma splitNL_replicate_append (k : Nat) (s : List Char) :
    splitNL (List.replicate k 'a' ++ s) =
      (List.replicate k 'a' ++ (splitNL s).headD []) :: (splitNL s).tail := by
  induction k with
  | zero =>
    simp only [List.replicate, List.nil_append]
    rcases hs : splitNL s with - | ⟨l, ls⟩
    · exact absurd hs (splitNL_ne_nil s)
    · rfl
  | succ k ih =>
    rw [List.replicate_succ, List.cons_append,
      splitNL_cons_of_ne 'a' (by decide) _, ih]
    rfl

lemma containsSeq_nil (l : List Char) : containsSeq [] l = true := by
  cases l <;> simp [containsSeq, startsWith, List.isEmpty]

/-- C7 counterexample input: a file of two lines, the first line 8299
characters long — longer than what the 8192-byte tail budget for
`lineCount = 10` can reach back. -/
def longLineFile : List Char := List.replicate 8299 'a' ++ '\n' :: ['b']

/-- C7 counterexample: on `longLineFile` with an empty filter and
`lineCount = 10`, the pre-follow phase does not print the last 10
matching lines of the file (it prints a truncated fragment of the first
line instead of the whole line), refuting the claim that for every file
the pre-follow phase prints exactly the last `lineCount` matching lines
in original order. -/
theorem preFollow_not_always_exact_tail :
    preFollowLines longLineFile [] 10 false ≠
      ((linesOf longLineFile).filter (fun l => containsSeq [] l)).drop
        (((linesOf longLineFile).filter (fun l => containsSeq [] l)).length - 10) := by
  have hsplit : ∀ k, splitNL (List.replicate k 'a' ++ '\n' :: ['b']) =
      [List.replicate k 'a', ['b']] := by
    intro k
    rw [splitNL_replicate_append k ('\n' :: ['b'])]
    rw [show splitNL ('\n' :: ['b']) = [[], ['b']] from rfl]
    rw [List.headD_cons, List.tail_cons, List.append_nil]
  have hlines : ∀ k, linesOf (List.replicate k 'a' ++ '\n' :: ['b']) =
      [List.replicate k 'a', ['b']] := by
    intro k
    have hg : ([List.replicate k 'a', ['b']] : List (List Char)).getLast? = some ['b'] := rfl
    rw [linesOf, hsplit k, hg, if_neg (by simp)]
  have hfilter : ∀ ls : List (List Char),
      ls.filter (fun l => containsSeq [] l) = ls := by
    intro ls
    induction ls with
    | nil => rfl
    | cons a as ih => rw [List.filter_cons, containsSeq_nil, if_pos rfl, ih]
  have hlen : longLineFile.length = 8301 := by
    rw [longLineFile, List.length_append, List.length_replicate]
    rfl
  have hstart : startPos 8301 10 false = 109 := by
    norm_num [startPos, tailBudget]
  have hwindow : longLineFile.drop 109 = List.replicate 8190 'a' ++ '\n' :: ['b'] := by
    rw [longLineFile, show (8299 : Nat) = 109 + 8190 by norm_num,
      List.replicate_add, List.append_assoc]
    rw [List.drop_left' (by simp)]
  have hlhs : preFollowLines longLineFile [] 10 false =
      [List.replicate 8190 'a', ['b']] := by
    rw [preFollowLines, hlen, hstart, hwindow, hlines 8190, hfilter]
    rw [show ([List.replicate 8190 'a', ['b']] : List (List Char)).length = 2 from rfl]
    rw [if_neg (by decide), List.drop_zero]
  have hrhs : ((linesOf longLineFile).filter (fun l => containsSeq [] l)) =
      [List.replicate 8299 'a', ['b']] := by
    rw [longLineFile, hlines 8299, hfilter]
  rw [hlhs, hrhs]
  rw [show ([List.replicate 8299 'a', ['b']] : List (List Char)).length = 2 from rfl]
  rw [show (2 : Nat) - 10 = 0 from rfl, List.drop_zero]
  intro h
  have hhead : List.replicate 8190 'a' = List.replicate 8299 'a' := by
    injection h
  have := congrArg List.length hhead
  rw [List.length_replicate, List.length_replicate] at this
  omega

/-- C7 (amended): whenever the whole file fits in the tail byte budget
`max(8192, lineCount * 200)`, the pre-follow phase of
`follow_file_filtered` with `readAll = false` prints exactly the last
`lineCount` lines among the file's lines containing the filter substring
(all of them if fewer), in their original file order; for larger files
it prints the last `lineCount` matching entries of the final
`max(8192, lineCount * 200)` bytes only, whose first entry may be a
fragment of a line. -/
theorem preFollow_exact_tail (content filterStr : List Char) (n : Nat)
    (h : content.length ≤ tailBudget n) :
    preFollowLines content filterStr n false =
      ((linesOf content).filter (fun l => containsSeq filterStr l)).drop
        (((linesOf content).filter (fun l => containsSeq filterStr l)).length - n) := by
  have hstart : startPos content.length n false = 0 := by
    rw [startPos, if_neg (by simp), if_neg (by omega)]
  rw [preFollowLines, hstart, List.drop_zero]
  split
  · rfl
  · rename_i hnot
    simp only [Bool.not_false, Bool.true_and, decide_eq_true_eq] at hnot
    rw [Nat.sub_eq_zero_of_le (by omega), List.drop_zero]

/-- Witness for the C7 amended theorem: a three-line file with
`lineCount = 1` prints exactly its last line. -/
theorem preFollow_exact_tail_witness :
    preFollowLines ['x', '\n', 'y', '\n', 'z'] [] 1 false = [['z']] := by
  rw [preFollow_exact_tail ['x', '\n', 'y', '\n', 'z'] [] 1
    (by norm_num [tailBudget])]
  decide

/-! ### One iteration of the follow loop -/

/-- The mutable state of the follow loop: the tracked follow position
`pos`, the open handle's read offset, and the buffered
newline-incomplete fragment (`partial_line` in the source). -/
structure FollowState where
  pos : Nat
  fileOffset : Nat
  pending : List Char
deriving DecidableEq, Repr

/-- I/O failures propagated by `?` inside the follow loop: the
`file.read` call at the top of each iteration, and the `File::open` and
`file.seek` calls of the truncation-recovery branch. -/
inductive IOErr where
  | ReadFailed
  | OpenFailed
  | SeekFailed
deriving DecidableEq, Repr

/-- The notice printed on detected truncation. -/
def truncationNotice : String := "\n*** Log truncated ***\n"

/-- Embedding of Rust `str::trim_end` (trailing whitespace removed). -/
def trimEnd (l : List Char) : List Char :=
  (l.reverse.dropWhile Char.isWhitespace).reverse

/-- The `while let Some(idx) = partial_line.find('\n')` drain loop of
`follow_file_filtered`: extract every complete (newline-terminated) line
from the buffer, trim it, keep it if it contains the filter, and leave
the trailing incomplete fragment.  `cur` accumulates the current line in
reverse.  Returns the kept (printed) lines and the leftover fragment. -/
def drainAux (filterStr cur : List Char) : List Char → List (List Char) × List Char
  | [] => ([], cur.reverse)
  | c :: rest =>
    if c = '\n' then
      let line := (c :: cur).reverse
      let trimmed := trimEnd line
      let r := drainAux filterStr [] rest
      (if containsSeq filterStr trimmed then trimmed :: r.1 else r.1, r.2)
    else drainAux filterStr (c :: cur) rest

/-- One iteration of the follow loop of `follow_file_filtered`, as a
pure transition.  Inputs: the result of the `file.read` call (the chunk
of newly appended bytes, empty at end-of-file), the result of the
`fs::metadata` probe (the file's current size, `none` when the probe
fails, in which case the loop just sleeps), and the results the
environment would give the truncation branch's `File::open(path)` and
`file.seek(SeekFrom::Start(0))` calls — both run under `?`, so either
failure propagates out of the loop as an error (the file can vanish
between the metadata probe and the reopen).  Output: the next state and
the lines printed this iteration; on successful reopen the new handle
reads from offset 0. -/
def stepFollow (filterStr : List Char) (st : FollowState)
    (readResult : Except IOErr (List Char)) (metaLen : Option Nat)
    (openResult seekResult : Except IOErr Unit) :
    Except IOErr (FollowState × List String) :=
  match readResult with
  | .error e => .error e
  | .ok chunk =>
    if chunk.length > 0 then
      let buf := st.pending ++ chunk
      let r := drainAux filterStr [] buf
      .ok ({ pos := st.pos + chunk.length,
             fileOffset := st.fileOffset + chunk.length,
             pending := r.2 },
           r.1.map fun l => String.mk l)
    else
      match metaLen with
      | some len =>
        if len < st.pos then
          match openResult with
          | .error e => .error e
          | .ok _ =>
            match seekResult with
            | .error e => .error e
            | .ok _ =>
              .ok ({ pos := 0, fileOffset := 0, pending := [] },
                   [truncationNotice])
        else .ok (st, [])
      | none => .ok (st, [])

/-- C8 counterexample: the shrink-detected case CAN be an error and CAN
terminate the loop — when the file vanishes between the metadata probe
and the recovery's `File::open(path)?`, that open failure propagates out
of `follow_file_filtered`, refuting "this case is never treated as an
error and never terminates the loop". -/
theorem follow_truncation_reopen_can_fail :
    stepFollow ['e'] ⟨100, 100, ['x']⟩ (.ok []) (some 40)
      (.error .OpenFailed) (.ok ()) = .error .OpenFailed := rfl

/-- C8 (amended): whenever a follow iteration reads no new bytes, the
file's current size is below the tracked position, and the recovery's
reopen and seek succeed, the follower recovers in place: position reset
to 0, buffered fragment discarded, file reopened from the start (handle
offset 0), and the visible truncation notice emitted.  The shrink
condition itself is never the error: in any iteration whose read
succeeded, an error can only be the propagated failure of the
truncation branch's reopen or seek. -/
theorem follow_truncation_recovery :
    (∀ filterStr st len, len < st.pos →
        stepFollow filterStr st (.ok []) (some len) (.ok ()) (.ok ()) =
          .ok ({ pos := 0, fileOffset := 0, pending := [] },
               [truncationNotice])) ∧
    (∀ filterStr st chunk metaLen openR seekR,
        (stepFollow filterStr st (.ok chunk) metaLen openR seekR).isOk = false →
          ∃ e, (openR = .error e ∨ seekR = .error e) ∧
            stepFollow filterStr st (.ok chunk) metaLen openR seekR =
              .error e) := by
  constructor
  · intro filterStr st len h
    simp [stepFollow, h]
  · intro filterStr st chunk metaLen openR seekR hfail
    rcases chunk with - | ⟨c, cs⟩
    · rcases metaLen with - | len
      · simp [stepFollow, Except.isOk, Except.toBool] at hfail
      · by_cases hl : len < st.pos
        · cases openR with
          | error e => exact ⟨e, Or.inl rfl, by simp [stepFollow, hl]⟩
          | ok u =>
            cases seekR with
            | error e => exact ⟨e, Or.inr rfl, by simp [stepFollow, hl]⟩
            | ok v =>
              simp [stepFollow, hl, Except.isOk, Except.toBool] at hfail
        · simp [stepFollow, hl, Except.isOk, Except.toBool] at hfail
    · simp [stepFollow, Except.isOk, Except.toBool] at hfail

/-- Witness for C8: a concrete follow state at position 100 with a
buffered fragment, observing a shrunken 40-byte file with a successful
reopen, resets to position 0 with an empty buffer and prints the
notice; and at the same state with a failing reopen, the iteration's
outcome is exactly that propagated open error. -/
theorem follow_truncation_recovery_witness :
    (stepFollow ['e'] ⟨100, 100, ['x', 'y']⟩ (.ok []) (some 40) (.ok ()) (.ok ()) =
      .ok (⟨0, 0, []⟩, [truncationNotice])) ∧
    (∃ e, ((.error .OpenFailed : Except IOErr Unit) = .error e ∨
        (.ok () : Except IOErr Unit) = .error e) ∧
      stepFollow ['e'] ⟨100, 100, ['x', 'y']⟩ (.ok []) (some 40)
        (.error .OpenFailed) (.ok ()) = .error e) :=
  ⟨follow_truncation_recovery.1 ['e'] ⟨100, 100, ['x', 'y']⟩ 40 (by norm_num),
   follow_truncation_recovery.2 ['e'] ⟨100, 100, ['x', 'y']⟩ [] (some 40)
     (.error .OpenFailed) (.ok ()) (by decide)⟩

/-! ## Service enumeration (`src/runit.rs`, `get_services`)

A directory is modelled as the list of its entries in filesystem
enumeration order; each entry carries its name, whether it is a
directory, and whether it has a `log` subdirectory.  Paths are modelled
as component lists (`PathBuf` comparison is lexicographic over
components, each compared as a string), and the final `dirs.sort()` uses
the derived `Ord` of `RunitService`, which compares the `path` field
first and the `name` field second. -/

/-- One entry of the service directory as delivered by `read_dir`. -/
structure DirEntry where
  name : String
  isDir : Bool
  hasLog : Bool
deriving DecidableEq, Repr

/-- Embedding of the `RunitService` struct: filesystem path (component
list) and service name.  Field order matters: the derived Rust `Ord`
compares `path` before `name`. -/
structure RunitService where
  path : List String
  name : String
deriving DecidableEq, Repr

/-- Strict lexicographic order on strings by code point: Rust compares
strings byte-lexicographically, and on valid UTF-8 the byte order agrees
with the code-point order. -/
def strLt (a b : String) : Prop := List.Lex (· < ·) a.data b.data

/-- Non-strict string order. -/
def strLe (a b : String) : Prop := strLt a b ∨ a = b

/-- Strict lexicographic order on paths: `PathBuf` comparison iterates
over components, each compared as a string. -/
def pathLt (a b : List String) : Prop := List.Lex strLt a b

instance : DecidableRel strLt := fun a b => by
  unfold strLt
  infer_instance

instance : DecidableRel strLe := fun a b => by
  unfold strLe
  infer_instance

instance : IsTrans String strLt :=
  ⟨fun _ _ _ h1 h2 => trans_of (List.Lex (· < ·)) h1 h2⟩

instance : IsAsymm String strLt :=
  ⟨fun _ _ h1 h2 => asymm_of (List.Lex (· < ·)) h1 h2⟩

instance : IsIrrefl String strLt :=
  ⟨fun _ h => asymm_of (List.Lex (· < ·)) h h⟩

instance : IsTrichotomous String strLt := by
  constructor
  intro a b
  rcases trichotomous_of (List.Lex (· < ·) : List Char → List Char → Prop)
      a.data b.data with h | h | h
  · exact Or.inl h
  · refine Or.inr (Or.inl ?_)
    cases a; cases b
    exact congrArg String.mk h
  · exact Or.inr (Or.inr h)

instance : IsStrictOrder String strLt := { }

instance : IsStrictTotalOrder String strLt := { }

instance : DecidableRel pathLt := fun a b => by
  unfold pathLt
  infer_instance

instance : IsTrans (List String) pathLt :=
  ⟨fun _ _ _ h1 h2 => trans_of (List.Lex strLt) h1 h2⟩

instance : IsIrrefl (List String) pathLt :=
  ⟨fun _ h => asymm_of (List.Lex strLt) h h⟩

instance : IsTrichotomous (List String) pathLt :=
  ⟨fun a b => trichotomous_of (List.Lex strLt) a b⟩

/-- The derived lexicographic `Ord` of `RunitService` used by
`dirs.sort()`: compare `path` (itself lexicographic over components),
then `name`. -/
def svcle (a b : RunitService) : Prop :=
  pathLt a.path b.path ∨ (a.path = b.path ∧ strLe a.name b.name)

instance : DecidableRel svcle := fun a b => by
  unfold svcle
  infer_instance

/-- Embedding of Rust `str::contains` on strings (first argument the
haystack, second the needle): case-sensitive unanchored substring. -/
def strContains (hay needle : String) : Bool :=
  containsSeq needle.data hay.data

/-- The filter test of `get_services`: with no filter every name passes;
with a filter only names containing it as a substring pass. -/
def passesFilter (filter : Option String) (name : String) : Bool :=
  match filter with
  | none => true
  | some f => strContains name f

/-- The enumeration loop of `get_services`: skip non-directory entries,
skip names failing the filter, push the service, and (when `log` is set
and the entry has a `log` subdirectory) push the synthetic `"- log"`
sub-service whose path is the entry's `log` subdirectory. -/
def collectServices (base : List String) (entries : List DirEntry)
    (log : Bool) (filter : Option String) : List RunitService :=
  match entries with
  | [] => []
  | e :: rest =>
    if !e.isDir then collectServices base rest log filter
    else if !passesFilter filter e.name then collectServices base rest log filter
    else
      ⟨base ++ [e.name], e.name⟩ ::
        ((if log && e.hasLog then [⟨base ++ [e.name, "log"], "- log"⟩] else []) ++
          collectServices base rest log filter)

/-- Embedding of `get_services`: enumerate, filter, then `dirs.sort()`
by the derived `(path, name)` order. -/
def get_services (base : List String) (entries : List DirEntry)
    (log : Bool) (filter : Option String) : List RunitService :=
  List.insertionSort svcle (collectServices base entries log filter)

instance : IsTrans RunitService svcle where
  trans a b c hab hbc := by
    rcases hab with hab | ⟨hab, hab'⟩
    · rcases hbc with hbc | ⟨hbc, -⟩
      · exact Or.inl (trans_of pathLt hab hbc)
      · exact Or.inl (hbc ▸ hab)
    · rcases hbc with hbc | ⟨hbc, hbc'⟩
      · exact Or.inl (hab ▸ hbc)
      · refine Or.inr ⟨hab.trans hbc, ?_⟩
        rcases hab' with h1 | h1
        · rcases hbc' with h2 | h2
          · exact Or.inl (trans_of strLt h1 h2)
          · exact Or.inl (by rw [← h2]; exact h1)
        · rcases hbc' with h2 | h2
          · exact Or.inl (by rw [h1]; exact h2)
          · exact Or.inr (h1.trans h2)

instance : IsTotal RunitService svcle where
  total a b := by
    rcases trichotomous_of pathLt a.path b.path with h | h | h
    · exact Or.inl (Or.inl h)
    · rcases trichotomous_of strLt a.name b.name with h' | h' | h'
      · exact Or.inl (Or.inr ⟨h, Or.inl h'⟩)
      · exact Or.inl (Or.inr ⟨h, Or.inr h'⟩)
      · exact Or.inr (Or.inr ⟨h.symm, Or.inl h'⟩)
    · exact Or.inr (Or.inl h)

lemma mem_collectServices (base : List String) (entries : List DirEntry)
    (log : Bool) (filter : Option String) (s : RunitService) :
    s ∈ collectServices base entries log filter ↔
      ∃ e ∈ entries, e.isDir = true ∧ passesFilter filter e.name = true ∧
        (s = ⟨base ++ [e.name], e.name⟩ ∨
          (log = true ∧ e.hasLog = true ∧
            s = ⟨base ++ [e.name, "log"], "- log"⟩)) := by
  induction entries with
  | nil => simp [collectServices]
  | cons e rest ih =>
    rw [collectServices]
    cases hdir : e.isDir with
    | false =>
      rw [if_pos (by decide), ih]
      constructor
      · rintro ⟨e', he', h⟩
        exact ⟨e', List.mem_cons_of_mem e he', h⟩
      · rintro ⟨e', he', hd, hp, h⟩
        rcases List.mem_cons.mp he' with rfl | he'
        · rw [hdir] at hd
          exact absurd hd (by decide)
        · exact ⟨e', he', hd, hp, h⟩
    | true =>
      cases hpass : passesFilter filter e.name with
      | false =>
        rw [if_neg (by decide), if_pos (by decide), ih]
        constructor
        · rintro ⟨e', he', h⟩
          exact ⟨e', List.mem_cons_of_mem e he', h⟩
        · rintro ⟨e', he', hd, hp, h⟩
          rcases List.mem_cons.mp he' with rfl | he'
          · rw [hpass] at hp
            exact absurd hp (by decide)
          · exact ⟨e', he', hd, hp, h⟩
      | true =>
        rw [if_neg (by decide), if_neg (by decide)]
        cases log with
        | false =>
          rw [if_neg (by simp), List.nil_append]
          constructor
          · intro hs
            rcases List.mem_cons.mp hs with rfl | hs
            · exact ⟨e, List.mem_cons_self e rest, hdir, hpass, Or.inl rfl⟩
            · obtain ⟨e', he', h⟩ := ih.mp hs
              exact ⟨e', List.mem_cons_of_mem e he', h⟩
          · rintro ⟨e', he', hd, hp, hcase⟩
            rcases List.mem_cons.mp he' with rfl | he'
            · rcases hcase with rfl | ⟨hfalse, -, -⟩
              · exact List.mem_cons_self _ _
              · exact absurd hfalse (by decide)
            · exact List.mem_cons_of_mem _ (ih.mpr ⟨e', he', hd, hp, hcase⟩)
        | true =>
          cases hh : e.hasLog with
          | false =>
            rw [if_neg (by decide), List.nil_append]
            constructor
            · intro hs
              rcases List.mem_cons.mp hs with rfl | hs
              · exact ⟨e, List.mem_cons_self e rest, hdir, hpass, Or.inl rfl⟩
              · obtain ⟨e', he', h⟩ := ih.mp hs
                exact ⟨e', List.mem_cons_of_mem e he', h⟩
            · rintro ⟨e', he', hd, hp, hcase⟩
              rcases List.mem_cons.mp he' with rfl | he'
              · rcases hcase with rfl | ⟨-, hfalse, -⟩
                · exact List.mem_cons_self _ _
                · rw [hh] at hfalse
                  exact absurd hfalse (by decide)
              · exact List.mem_cons_of_mem _ (ih.mpr ⟨e', he', hd, hp, hcase⟩)
          | true =>
            rw [if_pos (by decide), List.singleton_append]
            constructor
            · intro hs
              rcases List.mem_cons.mp hs with rfl | hs
              · exact ⟨e, List.mem_cons_self e rest, hdir, hpass, Or.inl rfl⟩
              · rcases List.mem_cons.mp hs with rfl | hs
                · exact ⟨e, List.mem_cons_self e rest, hdir, hpass,
                    Or.inr ⟨rfl, hh, rfl⟩⟩
                · obtain ⟨e', he', h⟩ := ih.mp hs
                  exact ⟨e', List.mem_cons_of_mem e he', h⟩
            · rintro ⟨e', he', hd, hp, hcase⟩
              rcases List.mem_cons.mp he' with rfl | he'
              · rcases hcase with rfl | ⟨-, -, rfl⟩
                · exact List.mem_cons_self _ _
                · exact List.mem_cons_of_mem _ (List.mem_cons_self _ _)
              · exact List.mem_cons_of_mem _ (List.mem_cons_of_mem _
                  (ih.mpr ⟨e', he', hd, hp, hcase⟩))

lemma pathLt_append_cancel (base : List String) {l1 l2 : List String}
    (h : pathLt (base ++ l1) (base ++ l2)) : pathLt l1 l2 := by
  induction base with
  | nil => exact h
  | cons b bs ih =>
    have h' : List.Lex strLt (b :: (bs ++ l1)) (b :: (bs ++ l2)) := h
    cases h' with
    | rel h'' => exact absurd h'' (irrefl_of strLt b)
    | cons h'' => exact ih h''

lemma pathLt_singleton {x y : String} (h : pathLt [x] [y]) : strLt x y := by
  have h' : List.Lex strLt [x] [y] := h
  cases h' with
  | rel h'' => exact h''
  | cons h'' => cases h''

/-- C5 counterexample: with `includeLog` set, the sorted listing of two
services `a` and `b` that both have log subdirectories is
`[a, "- log", b, "- log"]` — sorted by full path, which places each log
entry right after its parent; the resulting name sequence is NOT
ascending (`"- log"` sorts before `"a"` by name), refuting the claim
that the name-ascending ordering also holds for log sub-entries. -/
theorem get_services_log_entries_break_name_order :
    (get_services ["d"] [⟨"a", true, true⟩, ⟨"b", true, true⟩] true none).map
        (fun s => s.name) = ["a", "- log", "b", "- log"] ∧
    ¬ List.Sorted (fun x y => strLe x y)
        ((get_services ["d"] [⟨"a", true, true⟩, ⟨"b", true, true⟩] true none).map
          (fun s => s.name)) := by
  have h1 : (get_services ["d"] [⟨"a", true, true⟩, ⟨"b", true, true⟩] true none).map
      (fun s => s.name) = ["a", "- log", "b", "- log"] := by decide
  refine ⟨h1, ?_⟩
  rw [h1]
  intro h
  have h2 := (List.pairwise_cons.mp h).1 "- log" (by simp)
  revert h2
  decide

/-- C5 (amended): `get_services` skips non-directory entries, retains
(under a filter) only entries whose name contains the filter as a
case-sensitive unanchored substring, and returns the result sorted by
the derived `(path, name)` order — in particular sorted by name
ascending whenever `includeLog` is off, independent of enumeration
order, with `[a, b, c]` on the `{a, c, b}`-plus-file example; with
`includeLog` on, each log sub-entry (named `"- log"`) is placed by path
order immediately after its parent rather than into the global
name-ascending order. -/
theorem get_services_contract :
    (∀ base entries log filter s,
        s ∈ get_services base entries log filter ↔
          ∃ e ∈ entries, e.isDir = true ∧ passesFilter filter e.name = true ∧
            (s = ⟨base ++ [e.name], e.name⟩ ∨
              (log = true ∧ e.hasLog = true ∧
                s = ⟨base ++ [e.name, "log"], "- log"⟩))) ∧
    (∀ base entries log filter,
        List.Sorted svcle (get_services base entries log filter)) ∧
    (∀ base entries filter,
        List.Sorted (fun x y => strLe x y)
          ((get_services base entries false filter).map (fun s => s.name))) ∧
    (get_services ["d"]
        [⟨"a", true, false⟩, ⟨"c", true, false⟩, ⟨"b", true, false⟩,
         ⟨"f", false, false⟩] false none).map (fun s => s.name) =
      ["a", "b", "c"] := by
  refine ⟨?_, ?_, ?_, ?_⟩
  · intro base entries log filter s
    rw [get_services, List.mem_insertionSort, mem_collectServices]
  · intro base entries log filter
    rw [get_services]
    exact List.sorted_insertionSort svcle _
  · intro base entries filter
    have hshape : ∀ s ∈ get_services base entries false filter,
        s.path = base ++ [s.name] := by
      intro s hs
      rw [get_services, List.mem_insertionSort, mem_collectServices] at hs
      obtain ⟨e, -, -, -, h | ⟨hfalse, -, -⟩⟩ := hs
      · rw [h]
      · exact absurd hfalse (by decide)
    have hsorted : List.Pairwise svcle (get_services base entries false filter) :=
      List.sorted_insertionSort svcle _
    rw [List.Sorted, List.pairwise_map]
    refine List.Pairwise.imp_of_mem ?_ hsorted
    intro a b ha hb hab
    have hpa := hshape a ha
    have hpb := hshape b hb
    rcases hab with hlt | ⟨-, hle⟩
    · rw [hpa, hpb] at hlt
      exact Or.inl (pathLt_singleton (pathLt_append_cancel base hlt))
    · exact hle
  · decide

/-- Witness for C5: the singleton directory `{a}` yields the service
named `a` at path `d/a`, through the membership characterization. -/
theorem get_services_contract_witness :
    (⟨["d", "a"], "a"⟩ : RunitService) ∈
      get_services ["d"] [⟨"a", true, false⟩] false none :=
  (get_services_contract.1 ["d"] [⟨"a", true, false⟩] false none
      ⟨["d", "a"], "a"⟩).mpr
    ⟨⟨"a", true, false⟩, by decide, rfl, rfl, Or.inl rfl⟩

/-! ## Process tree rendering (`src/utils.rs`, `get_pstree` and
`build_tree_recursive`)

The single `/proc` scan is modelled by its result: a list of `ProcNode`
records (processes and threads) in scan order.  The `procs` hash map's
lookup is last-insert-wins, so `findNode` searches the reversed list;
the `children_map` entry for a pid is the list of scanned nodes whose
parent is that pid, in scan order, sorted ascending at each visit as
`build_tree_recursive` does with `sort_by_key`.  The rendering phase is
embedded as a function producing the emitted lines in order; each line
is paired with the pid of the node it renders, so that "each process id
is rendered at most once" is statable.  The function's return value
carries its visited-set invariant, which is also what makes the
recursion well-founded — exactly the cycle-safety argument of the
claim. -/

/-- One scanned process or thread (`ProcNode` in `utils.rs`). -/
structure ProcNode where
  pid : Nat
  ppid : Nat
  name : String
  is_thread : Bool
deriving DecidableEq, Repr

/-- Lookup in the `procs` map: the last scanned node with the given pid
(`HashMap::insert` overwrites). -/
def findNode (procs : List ProcNode) (p : Nat) : Option ProcNode :=
  procs.reverse.find? (fun n => n.pid == p)

/-- The `children_map` entry for a pid: scanned children in scan
order. -/
def childrenRaw (procs : List ProcNode) (p : Nat) : List Nat :=
  (procs.filter (fun n => n.ppid == p)).map (fun n => n.pid)

/-- The `sorted_children.sort_by_key(|&p| p)` step. -/
def sortPids (l : List Nat) : List Nat :=
  List.insertionSort (fun a b => a ≤ b) l

/-- All scanned pids. -/
def pidsOf (procs : List ProcNode) : List Nat := procs.map (fun n => n.pid)

/-- Number of scanned pids not yet visited: the termination measure of
the render recursion. -/
def unseenCount (procs : List ProcNode) (seen : List Nat) : Nat :=
  ((pidsOf procs).filter (fun p => ! seen.contains p)).length

lemma filter_length_mono (l : List Nat) (p q : Nat → Bool)
    (h : ∀ a, q a = true → p a = true) :
    (l.filter q).length ≤ (l.filter p).length := by
  induction l with
  | nil => simp
  | cons a t ih =>
    rw [List.filter_cons, List.filter_cons]
    by_cases hq : q a = true
    · rw [if_pos hq, if_pos (h a hq)]
      simp only [List.length_cons]
      omega
    · rw [if_neg hq]
      split
      · simp only [List.length_cons]
        omega
      · exact ih

lemma unseenCount_le_of_subset (procs : List ProcNode) {s1 s2 : List Nat}
    (h : ∀ x ∈ s1, x ∈ s2) :
    unseenCount procs s2 ≤ unseenCount procs s1 := by
  apply filter_length_mono
  intro a ha
  simp only [Bool.not_eq_true'] at ha ⊢
  have hnot : a ∉ s2 := by simpa using ha
  have : a ∉ s1 := fun hmem => hnot (h a hmem)
  simpa using this

lemma unseenCount_lt (procs : List ProcNode) {c : Nat} {seen : List Nat}
    (hc : c ∈ pidsOf procs) (hns : seen.contains c = false) :
    unseenCount procs (c :: seen) < unseenCount procs seen := by
  unfold unseenCount
  have himp : ∀ a : Nat, (!(c :: seen).contains a) = true →
      (! seen.contains a) = true := by
    intro a ha
    simp only [Bool.not_eq_true', List.contains_cons, Bool.or_eq_false_iff] at ha
    simpa using ha.2
  generalize hl : pidsOf procs = l at hc
  clear hl
  induction l with
  | nil => cases hc
  | cons a t ih =>
    rw [List.filter_cons, List.filter_cons]
    rcases List.mem_cons.mp hc with rfl | hct
    · rw [if_neg (by simp), if_pos (by simpa using hns)]
      simp only [List.length_cons]
      have := filter_length_mono t _ _ himp
      omega
    · by_cases hnew : (!(c :: seen).contains a) = true
      · rw [if_pos hnew, if_pos (himp a hnew)]
        simp only [List.length_cons]
        have := ih hct
        omega
      · rw [if_neg hnew]
        split
        · have := ih hct
          simp only [List.length_cons]
          omega
        · exact ih hct

lemma not_mem_pidsOf_of_findNode_none {procs : List ProcNode} {c : Nat}
    (h : findNode procs c = none) : c ∉ pidsOf procs := by
  intro hc
  obtain ⟨n, hn, hp⟩ := List.mem_map.mp hc
  have := List.find?_eq_none.mp h n (List.mem_reverse.mpr hn)
  simp [hp] at this

lemma mem_pidsOf_of_findNode_some {procs : List ProcNode} {c : Nat}
    {node : ProcNode} (h : findNode procs c = some node) :
    c ∈ pidsOf procs := by
  unfold findNode at h
  have h1 : (node.pid == c) = true := by simpa using List.find?_some h
  have h2 : node ∈ procs.reverse := List.mem_of_find?_eq_some h
  exact List.mem_map.mpr ⟨node, List.mem_reverse.mp h2, by simpa using h1⟩

lemma unseenCount_cons_of_not_mem (procs : List ProcNode) {c : Nat}
    (seen : List Nat) (h : c ∉ pidsOf procs) :
    unseenCount procs (c :: seen) = unseenCount procs seen := by
  unfold unseenCount
  congr 1
  apply List.filter_congr
  intro p hp
  have hne : p ≠ c := fun he => h (he ▸ hp)
  simp [List.contains_cons, hne]

/-- The invariant carried by the render recursion: the visited set only
grows, the emitted pids are distinct, and every emitted pid was
unvisited on entry and is visited on exit. -/
def RenderInv (seen : List Nat) (r : List (Nat × String) × List Nat) : Prop :=
  (∀ x ∈ seen, x ∈ r.2) ∧
  (r.1.map Prod.fst).Nodup ∧
  ∀ p ∈ r.1.map Prod.fst, p ∉ seen ∧ p ∈ r.2

lemma renderInv_step {c : Nat} {s : String} {seen : List Nat}
    (hseen : seen.contains c = false)
    {rs ra : List (Nat × String) × List Nat}
    (hsub : RenderInv (c :: seen) rs) (hafter : RenderInv rs.2 ra) :
    RenderInv seen ((c, s) :: (rs.1 ++ ra.1), ra.2) := by
  obtain ⟨hsubGrow, hsubNodup, hsubMem⟩ := hsub
  obtain ⟨hafterGrow, hafterNodup, hafterMem⟩ := hafter
  have hcseen : c ∉ seen := by simpa using hseen
  have hcs2 : c ∈ rs.2 := hsubGrow c (List.mem_cons_self c seen)
  have hseenSub : ∀ x ∈ seen, x ∈ rs.2 :=
    fun x hx => hsubGrow x (List.mem_cons_of_mem c hx)
  refine ⟨fun x hx => hafterGrow x (hseenSub x hx), ?_, ?_⟩
  · simp only [List.map_cons, List.map_append]
    refine List.Nodup.cons ?_ (List.Nodup.append hsubNodup hafterNodup ?_)
    · intro hmem
      rcases List.mem_append.mp hmem with hmem | hmem
      · exact (hsubMem c hmem).1 (List.mem_cons_self c seen)
      · exact (hafterMem c hmem).1 hcs2
    · intro p hps hpa
      exact (hafterMem p hpa).1 ((hsubMem p hps).2)
  · intro p hp
    simp only [List.map_cons, List.map_append, List.mem_cons,
      List.mem_append] at hp
    rcases hp with rfl | hp | hp
    · exact ⟨hcseen, hafterGrow p hcs2⟩
    · exact ⟨fun hmem => (hsubMem p hp).1 (List.mem_cons_of_mem c hmem),
        hafterGrow p (hsubMem p hp).2⟩
    · exact ⟨fun hmem => (hafterMem p hp).1 (hseenSub p hmem),
        (hafterMem p hp).2⟩

/-- Embedding of `build_tree_recursive` from `utils.rs`, operating on
the children list of the current node: an already-visited child is
skipped; an unvisited child is inserted into the visited set, and if it
is in the process table its line is emitted (terminal corner connector
and two-space child indentation for the last child, tee connector and
vertical-bar indentation otherwise) and its own children are rendered
recursively, threading the visited set left to right.  Each emitted
line is paired with the pid it renders (the pid component is ghost
bookkeeping; the string component is the rendered text).  The result
carries the visited-set invariant `RenderInv`, whose growth component
also justifies termination: every recursive descent strictly decreases
the number of unvisited scanned pids. -/
def renderChildren (procs : List ProcNode) (cmap : Nat → List Nat) :
    List Nat → String → (seen : List Nat) →
    { r : List (Nat × String) × List Nat // RenderInv seen r }
  | [], _, seen => ⟨([], seen), fun _ hx => hx, by simp, by simp⟩
  | c :: rest, pfx, seen =>
    if hseen : seen.contains c = true then
      renderChildren procs cmap rest pfx seen
    else
      match hfind : findNode procs c with
      | none =>
        let r := renderChildren procs cmap rest pfx (c :: seen)
        ⟨r.1,
         fun x hx => r.2.1 x (List.mem_cons_of_mem c hx),
         r.2.2.1,
         fun p hp => ⟨fun hmem => (r.2.2.2 p hp).1 (List.mem_cons_of_mem c hmem),
           (r.2.2.2 p hp).2⟩⟩
      | some node =>
        let conn := if rest.isEmpty then "└─" else "├─"
        let childPfx := if rest.isEmpty then "  " else "│ "
        let sub := renderChildren procs cmap (sortPids (cmap c))
          (pfx ++ childPfx) (c :: seen)
        let after := renderChildren procs cmap rest pfx sub.1.2
        ⟨((c, pfx ++ conn ++ node.name) :: (sub.1.1 ++ after.1.1), after.1.2),
         renderInv_step (Bool.eq_false_iff.mpr hseen) sub.2 after.2⟩
termination_by children pfx seen => (unseenCount procs seen, children.length)
decreasing_by
· apply Prod.Lex.right
  simp only [List.length_cons]
  omega
· rw [unseenCount_cons_of_not_mem procs seen
    (not_mem_pidsOf_of_findNode_none hfind)]
  apply Prod.Lex.right
  simp only [List.length_cons]
  omega
· apply Prod.Lex.left
  exact unseenCount_lt procs (mem_pidsOf_of_findNode_some hfind)
    (Bool.eq_false_iff.mpr hseen)
· apply Prod.Lex.left
  exact Nat.lt_of_le_of_lt (unseenCount_le_of_subset procs sub.2.1)
    (unseenCount_lt procs (mem_pidsOf_of_findNode_some hfind)
      (Bool.eq_false_iff.mpr hseen))

/-- Embedding of the rendering phase of `get_pstree`: if the root pid is
absent from the table the result is empty; otherwise the root's name is
emitted unprefixed and the tree is rendered from the root's children
with the visited set seeded with the root.  Lines are paired with the
pid they render. -/
def pstreeLines (procs : List ProcNode) (root : Nat) : List (Nat × String) :=
  match findNode procs root with
  | none => []
  | some node =>
    (root, node.name) ::
      (renderChildren procs (childrenRaw procs)
        (sortPids (childrenRaw procs root)) "" [root]).1.1

/-- C6: the rendering phase terminates on every finite process table —
`pstreeLines` is a total function, its recursion well-founded on the
count of unvisited pids — and renders each process id at most once: the
emitted pid sequence has no duplicates, the visited set being seeded
with the root and never descended into twice; on the cyclic two-process
table (10's parent is 20 and 20's parent is 10) rooted at 10 it renders
exactly the two lines `p10` and `└─p20`, a finite tree with no
duplicated nodes. -/
theorem pstree_renders_each_pid_once :
    (∀ procs root, ((pstreeLines procs root).map Prod.fst).Nodup) ∧
    pstreeLines [⟨10, 20, "p10", false⟩, ⟨20, 10, "p20", false⟩] 10 =
      [(10, "p10"), (20, "└─p20")] := by
  constructor
  · intro procs root
    unfold pstreeLines
    split
    · simp
    · rename_i node hfind
      have hinv := (renderChildren procs (childrenRaw procs)
        (sortPids (childrenRaw procs root)) "" [root]).2
      simp only [List.map_cons]
      refine List.Nodup.cons ?_ hinv.2.1
      intro hmem
      exact (hinv.2.2 root hmem).1 (List.mem_cons_self root [])
  · simp +decide [pstreeLines, renderChildren, findNode, childrenRaw,
      sortPids, List.insertionSort, List.orderedInsert]

end Vsv
